import Mathlib

/-!
Verification of the Kafka Desktop Viewer core against its design spec.

The definitions below are a shallow embedding of the repository's
TypeScript source: the masking engine (`maskText`), the record
normalizer (the body of `eachMessage`), the Electron main-process
consumer lifecycle (`stopConsumer`, the `kafka:start` / `kafka:stop`
IPC handlers), and the renderer's bounded ingestion buffer, filtered
view and `start` routine (the `App` component).
-/

namespace KV

/-- Text is modelled as a list of characters. -/
abbrev Str := List Char

/-! ## Bounded ingestion buffer (App component)

`MAX_MESSAGES = 500`; the drain timer callback merges the queued batch
into the retained list and keeps only the most recent `MAX_MESSAGES`:
`merged.slice(merged.length - MAX_MESSAGES)`. -/

def MAX_MESSAGES : Nat := 500

/-- One timer-driven drain step of the App component: `prev.concat(queue)`
followed by `slice(merged.length - MAX_MESSAGES)` when over capacity. -/
def uiDrain (prev queue : List Nat) : List Nat :=
  if (prev ++ queue).length ≤ MAX_MESSAGES then prev ++ queue
  else (prev ++ queue).drop ((prev ++ queue).length - MAX_MESSAGES)

/-- Feeding records one at a time through the drain path. -/
def drainAll (records : List Nat) : List Nat :=
  records.foldl (fun buf r => uiDrain buf [r]) []

/-! ## Masking engine (`maskText`)

`maskText` applies two global JavaScript regex replacements in sequence:
`/[A-Z0-9._%+-]+@[A-Z0-9.-]+\.[A-Z]{2,}/gi` with `[REDACTED_EMAIL]`, then
`/\b\d{7,}\b/g` with `[REDACTED_NUM]`.  The matchers below reproduce the
backtracking semantics of those two patterns (greedy quantifiers, word
boundaries, case-insensitive character classes), and `jsReplaceAll`
reproduces `String.prototype.replace` with a global regex: repeatedly
find the leftmost match, emit the token, continue after the match. -/

def isDigitCh (c : Char) : Bool := '0' ≤ c && c ≤ '9'

def isAlphaCh (c : Char) : Bool := ('A' ≤ c && c ≤ 'Z') || ('a' ≤ c && c ≤ 'z')

/-- JS word character `\w`: `[A-Za-z0-9_]`. -/
def isWordCh (c : Char) : Bool := isAlphaCh c || isDigitCh c || c == '_'

/-- Character class `[A-Z0-9._%+-]` under the `i` flag. -/
def isLocalCh (c : Char) : Bool :=
  isAlphaCh c || isDigitCh c || c == '.' || c == '_' || c == '%' || c == '+' || c == '-'

/-- Character class `[A-Z0-9.-]` under the `i` flag. -/
def isDomainCh (c : Char) : Bool := isAlphaCh c || isDigitCh c || c == '.' || c == '-'

/-- Length of the maximal prefix of `s` whose characters satisfy `p`
(what a greedy `p+`/`p*` consumes before any backtracking). -/
def runLen (p : Char → Bool) : Str → Nat
  | [] => 0
  | c :: t => if p c then runLen p t + 1 else 0

/-- Length of the greedy `[A-Z]{2,}` run after position `m` of `s`. -/
def tldLen (s : Str) (m : Nat) : Nat := runLen isAlphaCh (s.drop (m + 1))

/-- Backtracking search for `\.[A-Z]{2,}` after the greedy `[A-Z0-9.-]+`:
the engine retries the `+` from the longest consumption `k` downward; a
candidate `m` succeeds when the next character is `.` and at least two
letters follow.  Returns the total length consumed after the `@`. -/
def domainSearch (s : Str) : Nat → Option Nat
  | 0 => none
  | k + 1 =>
    if s[k + 1]? == some '.' && decide (2 ≤ tldLen s (k + 1)) then
      some ((k + 1) + 1 + tldLen s (k + 1))
    else domainSearch s k

/-- Length of the match of `[A-Z0-9._%+-]+@[A-Z0-9.-]+\.[A-Z]{2,}` (flag
`i`) at the start of `s`, if any. -/
def emailMatchLen (s : Str) : Option Nat :=
  let l := runLen isLocalCh s
  if l == 0 then none
  else if s[l]? == some '@' then
    match domainSearch (s.drop (l + 1)) (runLen isDomainCh (s.drop (l + 1))) with
    | some n => some (l + 1 + n)
    | none => none
  else none

/-- The trailing `\b` test after `k` consumed word characters: holds at
end of input or before a non-word character. -/
def boundaryAfter (s : Str) (k : Nat) : Bool :=
  match s[k]? with
  | none => true
  | some c => !isWordCh c

/-- Backtracking search for the greedy `\d{7,}\b`: retry the digit count
from the maximal run downward, requiring at least 7 digits and a word
boundary after the consumed digits. -/
def digitSearch (s : Str) : Nat → Option Nat
  | 0 => none
  | k + 1 =>
    if decide (7 ≤ k + 1) && boundaryAfter s (k + 1) then some (k + 1)
    else digitSearch s k

/-- The leading `\b` test: the match position is preceded by no character
or by a non-word character (the first matched character is a digit, hence
a word character). -/
def prevNonWord : Option Char → Bool
  | none => true
  | some c => !isWordCh c

/-- Length of the match of `\b\d{7,}\b` at the start of `s`, where `prev`
is the character just before the match position in the subject string. -/
def digitMatchLen (prev : Option Char) (s : Str) : Option Nat :=
  if prevNonWord prev then digitSearch s (runLen isDigitCh s) else none

def REDACTED_EMAIL : Str := "[REDACTED_EMAIL]".toList

def REDACTED_NUM : Str := "[REDACTED_NUM]".toList

/-- Scanner for `String.prototype.replace` with a global regex: at each
position try the matcher (which receives the previous subject character
for `\b` lookbehind); on a match of length `n` emit `token` and resume
after the consumed characters, else emit the character and advance by
one.  `fuel` bounds the recursion and is instantiated with the subject
length, which the per-position progress never exhausts. -/
def replaceGo (matcher : Option Char → Str → Option Nat) (token : Str) :
    Nat → Option Char → Str → Str
  | 0, _, s => s
  | _ + 1, _, [] => []
  | fuel + 1, prev, c :: rest =>
    match matcher prev (c :: rest) with
    | some n =>
      token ++ replaceGo matcher token fuel (((c :: rest).take n).getLast?) ((c :: rest).drop n)
    | none => c :: replaceGo matcher token fuel (some c) rest

def jsReplaceAll (matcher : Option Char → Str → Option Nat) (token : Str) (s : Str) : Str :=
  replaceGo matcher token s.length none s

/-- `maskText` from the source: email pass, then digit pass over the
email-redacted text. -/
def maskText (s : Str) : Str :=
  jsReplaceAll digitMatchLen REDACTED_NUM
    (jsReplaceAll (fun _ t => emailMatchLen t) REDACTED_EMAIL s)

/-! ### Reference masking transform, following the spec's words

The spec describes the masking policy declaratively: every substring
matching the email shape (local part, `@`, domain, `.`, a 2+ letter TLD,
case-insensitively) becomes one token; then every standalone run of 7 or
more consecutive decimal digits bounded by word boundaries becomes the
other token, over the already-email-redacted text.  `specMask` renders
that description: the email domain split is chosen via `Nat.findGreatest`
(the longest domain admitting a dot and a 2+ letter TLD), and the digit
pass walks the text run by run rather than character by character. -/

/-- A valid split of `domain.TLD` after the `@`: `m` domain characters,
then a literal dot, then at least two letters. -/
def specDomainProp (s : Str) (m : Nat) : Prop :=
  1 ≤ m ∧ s[m]? = some '.' ∧ 2 ≤ tldLen s m

instance (s : Str) : DecidablePred (specDomainProp s) := fun m =>
  inferInstanceAs (Decidable (1 ≤ m ∧ s[m]? = some '.' ∧ 2 ≤ tldLen s m))

/-- Modelled from the spec: the longest admissible `domain.TLD`
consumption after the `@`, if any. -/
def specDomainLen (s : Str) : Option Nat :=
  let g := Nat.findGreatest (specDomainProp s) (runLen isDomainCh s)
  if 1 ≤ g then some (g + 1 + tldLen s g) else none

/-- Modelled from the spec: length of the email-shaped prefix of `s`
(nonempty local part, `@`, longest admissible domain and TLD). -/
def specEmailLen (s : Str) : Option Nat :=
  let l := runLen isLocalCh s
  if 1 ≤ l ∧ s[l]? = some '@' then
    match specDomainLen (s.drop (l + 1)) with
    | some n => some (l + 1 + n)
    | none => none
  else none

/-- Modelled from the spec: the digit-run replacement, processing the
text as alternating digit runs and other characters.  A maximal run of
at least 7 digits whose neighbours on both sides are absent or non-word
characters is replaced by the token; every other character is copied. -/
def specDigitPass (tok : Str) : Option Char → Str → Str
  | _, [] => []
  | prev, c :: rest =>
    if hc : isDigitCh c then
      (if prevNonWord prev && decide (7 ≤ ((c :: rest).takeWhile isDigitCh).length)
          && prevNonWord ((c :: rest).dropWhile isDigitCh).head? then tok
       else (c :: rest).takeWhile isDigitCh)
        ++ specDigitPass tok ((c :: rest).takeWhile isDigitCh).getLast?
            ((c :: rest).dropWhile isDigitCh)
    else c :: specDigitPass tok (some c) rest
  termination_by _ s => s.length
  decreasing_by
    · simp only [List.dropWhile_cons, hc, if_true, List.length_cons]
      exact Nat.lt_succ_of_le (List.dropWhile_sublist _).length_le
    · simp

/-- The reference transform of the spec: email redaction first, then the
digit-run redaction over the already-email-redacted text. -/
def specMask (s : Str) : Str :=
  specDigitPass REDACTED_NUM none
    (jsReplaceAll (fun _ t => specEmailLen t) REDACTED_EMAIL s)

/-! ## Record normalizer (body of `eachMessage`) -/

/-- JavaScript truthiness of the raw broker timestamp (an optional
integer in the data model): `undefined`/`null` and `0` are falsy. -/
def jsTruthyTs : Option Int → Bool
  | none => false
  | some v => v != 0

/-- `message.timestamp ? Number(message.timestamp) : null`. -/
def normalizeTs (t : Option Int) : Option Int :=
  if jsTruthyTs t then t else none

/-- The kafkajs message payload handed to `eachMessage`: offset, optional
timestamp, optional binary key/value (here already UTF-8 decoded), and a
header mapping with optional binary values. -/
structure RawMsg where
  offset : Str
  timestamp : Option Int
  key : Option Str
  value : Option Str
  headers : List (Str × Option Str)
deriving DecidableEq

/-- The `KafkaMsg` shape sent to the renderer. -/
structure KafkaMsg where
  topic : Str
  partition : Nat
  offset : Str
  timestamp : Option Int
  key : Str
  value : Str
  headers : List (Str × Str)
deriving DecidableEq

/-- `buf ? buf.toString("utf8") : ""`. -/
def decodeBuf : Option Str → Str
  | none => []
  | some s => s

/-- The normalization performed inside `eachMessage`: decode key/value
and headers (absent becomes the empty string), normalize the timestamp,
and apply `maskText` to key, value and every header value when the mask
flag from the start config is set. -/
def normalizeMsg (maskFlag : Bool) (topic : Str) (partition : Nat) (m : RawMsg) : KafkaMsg :=
  let key := decodeBuf m.key
  let value := decodeBuf m.value
  let headers := m.headers.map (fun kv => (kv.1, decodeBuf kv.2))
  { topic := topic
    partition := partition
    offset := m.offset
    timestamp := normalizeTs m.timestamp
    key := if maskFlag then maskText key else key
    value := if maskFlag then maskText value else value
    headers := if maskFlag then headers.map (fun kv => (kv.1, maskText kv.2)) else headers }

/-! ## Main-process consumer lifecycle

State of the Electron main process: whether a window is attached, the
module-level `consumer` handle, the broker connections currently
established, and the `running` flag. -/

structure MainState where
  win : Bool
  consumer : Option Nat
  live : List Nat
  running : Bool
deriving DecidableEq

/-- The successive states of `stopConsumer()`: first `running = false`;
then, when a consumer is held, `stop()`/`disconnect()` (releasing the
broker connection; shutdown errors are swallowed) and `consumer = null`. -/
def stopSteps (s : MainState) : List MainState :=
  match s.consumer with
  | none => [{ s with running := false }]
  | some c => [{ s with running := false },
      { s with running := false, consumer := none, live := s.live.erase c }]

/-- The state after `stopConsumer()` completes. -/
def stopConsumer (s : MainState) : MainState :=
  match s.consumer with
  | none => { s with running := false }
  | some c => { s with running := false, consumer := none, live := s.live.erase c }

/-- `ipcMain.handle("kafka:stop")`: awaits `stopConsumer()` and returns
`{ ok: true }`.  The Boolean argument injects a `stop()/disconnect()`
failure; the `catch` inside `stopConsumer` swallows it, so neither the
ack nor the state depends on it. -/
def stopHandler (s : MainState) (_disconnectErr : Bool) : Bool × MainState :=
  (true, stopConsumer s)

/-- Failure injection for the `kafka:start` handler steps. -/
inductive StartOutcome
  | ok | connectFail | subscribeFail | runFail
deriving DecidableEq

/-- The successive states of `ipcMain.handle("kafka:start")`: await
`stopConsumer()`; assign the fresh consumer handle; `connect` (may
fail); `subscribe` (may fail, no state change); `running = true`; `run`
(may fail after the flag is set).  There is no `try`/`catch`: a failing
step ends the sequence there and the rejection propagates. -/
def startSteps (s : MainState) (nid : Nat) (out : StartOutcome) : List MainState :=
  let s1 := stopConsumer s
  let s2 : MainState := { s1 with consumer := some nid }
  match out with
  | .connectFail => [s1, s2]
  | .subscribeFail => [s1, s2, { s2 with live := nid :: s2.live }]
  | _ => [s1, s2, { s2 with live := nid :: s2.live },
      { s2 with live := nid :: s2.live, running := true }]

/-- The state left behind by the `kafka:start` handler. -/
def startFinal (s : MainState) (nid : Nat) (out : StartOutcome) : MainState :=
  ((startSteps s nid out).getLast?).getD s

/-- The promise the `kafka:start` handler settles for the renderer:
`{ ok: true }` on success, a rejection otherwise. -/
def startResult (out : StartOutcome) : Except String Unit :=
  match out with
  | .ok => Except.ok ()
  | _ => Except.error "ConnectionError"

/-- The guard and delivery of the `eachMessage` callback: drop silently
when the running flag is cleared or no window is attached, otherwise
normalize (with the mask flag captured at start time) and push. -/
def eachMessage (running win maskFlag : Bool) (topic : Str) (partition : Nat)
    (m : RawMsg) : Option KafkaMsg :=
  if !running || !win then none
  else some (normalizeMsg maskFlag topic partition m)

/-! ## Renderer (App component): filtered view and start routine -/

/-- JS `String.prototype.trim` whitespace (ASCII part). -/
def isJsSpace (c : Char) : Bool :=
  c == ' ' || c == '\t' || c == '\n' || c == '\r' || c == '\x0b' || c == '\x0c'

def jsTrim (s : Str) : Str :=
  ((s.dropWhile isJsSpace).reverse.dropWhile isJsSpace).reverse

def toLowerStr (s : Str) : Str := s.map Char.toLower

/-- JS `String.prototype.includes`: `needle` occurs as a contiguous
substring of the argument. -/
def containsSub (needle : Str) : Str → Bool
  | [] => needle.isEmpty
  | c :: t => needle.isPrefixOf (c :: t) || containsSub needle t

/-- `hay.includes(needle)` in source order. -/
def jsIncludes (hay needle : Str) : Bool := containsSub needle hay

/-- The `filtered` memo: `search.trim().toLowerCase()`; an empty result
disables filtering, otherwise a message is kept when the lowercased
`` `${m.key} ${m.value}` `` contains the query. -/
def filtered (messages : List KafkaMsg) (search : Str) : List KafkaMsg :=
  let q := toLowerStr (jsTrim search)
  if q.isEmpty then messages
  else messages.filter (fun m => jsIncludes (toLowerStr (m.key ++ ' ' :: m.value)) q)

/-- The claim's literal reading of the Filtered View: an empty or
whitespace-only query yields the buffer; otherwise the query is
lowercased — without trimming — and matched as a substring. -/
def claimFiltered (messages : List KafkaMsg) (search : Str) : List KafkaMsg :=
  if (jsTrim search).isEmpty then messages
  else messages.filter
    (fun m => jsIncludes (toLowerStr (m.key ++ ' ' :: m.value)) (toLowerStr search))

inductive UiStatus
  | stopped | starting | running | error
deriving DecidableEq

/-- Renderer state: retained messages, transient queue, selection,
status pill. -/
structure UiState where
  messages : List KafkaMsg
  queue : List KafkaMsg
  selected : Option KafkaMsg
  status : UiStatus
deriving DecidableEq

/-- The App `start` routine: blank-field guard (early return issues no
broker call and changes nothing), then clear selection, retained
messages and transient queue, set `starting`, await the broker start
(`callOk` tells whether it succeeds) and set `running` or `error`.
Returns whether the broker call was issued, with the successive
states. -/
def rendererStart (brokers topic groupId : Str) (callOk : Bool) (s : UiState) :
    Bool × List UiState :=
  if (jsTrim brokers).isEmpty || (jsTrim topic).isEmpty || (jsTrim groupId).isEmpty then
    (false, [s])
  else
    (true, [{ messages := [], queue := [], selected := none, status := UiStatus.starting },
      { messages := [], queue := [], selected := none,
        status := if callOk then UiStatus.running else UiStatus.error }])

/-! ## Bounded ingestion buffer: lemmas -/

theorem uiDrain_eq_drop (prev queue : List Nat) :
    uiDrain prev queue = (prev ++ queue).drop ((prev ++ queue).length - MAX_MESSAGES) := by
  unfold uiDrain
  split
  next h => rw [Nat.sub_eq_zero_of_le h, List.drop_zero]
  next h => rfl

theorem uiDrain_length_le (prev queue : List Nat) :
    (uiDrain prev queue).length ≤ MAX_MESSAGES := by
  rw [uiDrain_eq_drop, List.length_drop]
  omega

theorem drainAll_eq_drop (l : List Nat) :
    drainAll l = l.drop (l.length - MAX_MESSAGES) := by
  induction l using List.reverseRecOn with
  | nil => rfl
  | append_singleton l r ih =>
    unfold drainAll at ih ⊢
    rw [List.foldl_append, List.foldl_cons, List.foldl_nil, ih, uiDrain_eq_drop,
      ← List.drop_append_of_le_length (by omega : l.length - MAX_MESSAGES ≤ l.length),
      List.drop_drop]
    refine congrArg (fun n => List.drop n (l ++ [r])) ?_
    simp only [List.length_append, List.length_drop, List.length_cons, List.length_nil]
    omega

theorem drainAll_600 : drainAll (List.range' 1 600) = List.range' 101 500 := by
  have h : List.range' 1 100 ++ List.range' 101 500 = List.range' 1 600 := by
    have h2 := List.range'_append_1 1 100 500
    norm_num at h2
    exact h2
  rw [drainAll_eq_drop, ← h]
  have hl : (List.range' 1 100 ++ List.range' 101 500).length - MAX_MESSAGES = 100 := by
    simp [MAX_MESSAGES]
  rw [hl]
  exact List.drop_left' (by simp)

/-- C1: each timer-driven drain appends the queued batch to the retained
buffer in arrival order and keeps exactly the most recent 500 records in
arrival order (evicting the oldest from the front) whenever the merge
exceeds 500; pushing records 1..600 one at a time through the drain path
leaves exactly records 101..600, and the buffer length never exceeds
500. -/
theorem drain_keeps_recent_500 :
    (∀ prev queue : List Nat,
        uiDrain prev queue
          = (prev ++ queue).drop ((prev ++ queue).length - MAX_MESSAGES)
        ∧ (uiDrain prev queue).length ≤ MAX_MESSAGES)
    ∧ drainAll (List.range' 1 600) = List.range' 101 500 := by
  exact ⟨fun prev queue => ⟨uiDrain_eq_drop prev queue, uiDrain_length_le prev queue⟩,
    drainAll_600⟩

/-! ### Equivalence of `maskText` with the reference transform -/

theorem runLen_le_length (p : Char → Bool) (s : Str) : runLen p s ≤ s.length := by
  induction s with
  | nil => exact Nat.le_refl 0
  | cons c t ih =>
    unfold runLen
    split
    · exact Nat.succ_le_succ ih
    · exact Nat.zero_le _

theorem getElem?_lt_runLen (p : Char → Bool) {s : Str} {j : Nat} (h : j < runLen p s) :
    ∃ c, s[j]? = some c ∧ p c = true := by
  induction s generalizing j with
  | nil => simp [runLen] at h
  | cons c t ih =>
    rw [runLen] at h
    split at h
    next hc =>
      cases j with
      | zero => exact ⟨c, by simp, hc⟩
      | succ j => simpa using ih (Nat.lt_of_succ_lt_succ h)
    next => omega

theorem take_runLen (p : Char → Bool) (s : Str) : s.take (runLen p s) = s.takeWhile p := by
  induction s with
  | nil => rfl
  | cons c t ih =>
    rw [runLen, List.takeWhile_cons]
    split
    next hc => simp [hc, List.take_succ_cons, ih]
    next hc => simp [hc]

theorem drop_runLen (p : Char → Bool) (s : Str) : s.drop (runLen p s) = s.dropWhile p := by
  induction s with
  | nil => rfl
  | cons c t ih =>
    rw [runLen, List.dropWhile_cons]
    split
    next hc => simp [hc, List.drop_succ_cons, ih]
    next hc => simp [hc]

theorem length_takeWhile (p : Char → Bool) (s : Str) :
    (s.takeWhile p).length = runLen p s := by
  induction s with
  | nil => rfl
  | cons c t ih =>
    rw [runLen, List.takeWhile_cons]
    split <;> simp [ih]

theorem isWordCh_of_isDigitCh {c : Char} (h : isDigitCh c = true) : isWordCh c = true := by
  simp [isWordCh, h]

/-- The trailing boundary test at the end of the maximal digit run is the
head test of the remainder. -/
theorem boundaryAfter_runLen (p : Char → Bool) (s : Str) :
    boundaryAfter s (runLen p s) = prevNonWord ((s.dropWhile p).head?) := by
  induction s with
  | nil => rfl
  | cons c t ih =>
    rw [runLen, List.dropWhile_cons]
    split
    next hc =>
      have : boundaryAfter (c :: t) (runLen p t + 1) = boundaryAfter t (runLen p t) := by
        simp [boundaryAfter]
      rw [this, ih]
    next hc => simp [boundaryAfter, prevNonWord]

theorem digitSearch_eq_none {s : Str} {k : Nat} (h : k < runLen isDigitCh s) :
    digitSearch s k = none := by
  induction k with
  | zero => rfl
  | succ k ih =>
    obtain ⟨c, hc, hdig⟩ := getElem?_lt_runLen isDigitCh h
    rw [digitSearch]
    have hb : boundaryAfter s (k + 1) = false := by
      simp [boundaryAfter, hc, isWordCh_of_isDigitCh hdig]
    rw [hb]
    simp only [Bool.and_false, if_false]
    exact ih (Nat.lt_of_succ_lt h)

theorem digitSearch_runLen (s : Str) :
    digitSearch s (runLen isDigitCh s)
      = if 7 ≤ runLen isDigitCh s ∧ boundaryAfter s (runLen isDigitCh s) = true
        then some (runLen isDigitCh s) else none := by
  cases hrun : runLen isDigitCh s with
  | zero => simp [digitSearch]
  | succ k =>
    rw [digitSearch]
    by_cases h7 : 7 ≤ k + 1
    · by_cases hb : boundaryAfter s (k + 1) = true
      · simp [h7, hb]
      · rw [if_neg (by simp [Bool.and_eq_true, hb]), if_neg (by tauto)]
        exact digitSearch_eq_none (by omega)
    · rw [if_neg (by simp [h7]), if_neg (by tauto)]
      exact digitSearch_eq_none (by omega)

theorem digitMatchLen_eq (prev : Option Char) (s : Str) :
    digitMatchLen prev s
      = if prevNonWord prev = true ∧ 7 ≤ runLen isDigitCh s
           ∧ boundaryAfter s (runLen isDigitCh s) = true
        then some (runLen isDigitCh s) else none := by
  unfold digitMatchLen
  by_cases hp : prevNonWord prev = true
  · rw [if_pos hp, digitSearch_runLen]
    by_cases h : 7 ≤ runLen isDigitCh s ∧ boundaryAfter s (runLen isDigitCh s) = true
    · rw [if_pos h, if_pos ⟨hp, h⟩]
    · rw [if_neg h, if_neg (by tauto)]
  · rw [if_neg hp, if_neg (by tauto)]

theorem prevNonWord_digit {c : Char} (hc : isDigitCh c = true) :
    prevNonWord (some c) = false := by
  simp [prevNonWord, isWordCh_of_isDigitCh hc]

theorem specDigitPass_cons_nondigit (tok : Str) (prev : Option Char) {c : Char} (rest : Str)
    (hc : isDigitCh c = false) :
    specDigitPass tok prev (c :: rest) = c :: specDigitPass tok (some c) rest := by
  rw [specDigitPass]
  simp [hc]

theorem specDigitPass_cons_digit_step (tok : Str) (prev : Option Char) {c : Char} (rest : Str)
    (hc : isDigitCh c = true)
    (hcond : (prevNonWord prev && decide (7 ≤ ((c :: rest).takeWhile isDigitCh).length)
        && prevNonWord ((c :: rest).dropWhile isDigitCh).head?) = false) :
    specDigitPass tok prev (c :: rest) = c :: specDigitPass tok (some c) rest := by
  rw [specDigitPass, dif_pos hc, if_neg (by simp [hcond])]
  cases rest with
  | nil => simp [List.takeWhile_cons, List.dropWhile_cons, hc]
  | cons d rest2 =>
    by_cases hd : isDigitCh d = true
    · rw [specDigitPass, dif_pos hd,
        if_neg (by simp [prevNonWord_digit hc])]
      simp [List.takeWhile_cons, List.dropWhile_cons, hc, hd]
    · simp only [Bool.not_eq_true] at hd
      simp [List.takeWhile_cons, List.dropWhile_cons, hc, hd]

theorem replaceGo_cons_some {matcher : Option Char → Str → Option Nat} {tok : Str} {f : Nat}
    {prev : Option Char} {c : Char} {rest : Str} {n : Nat}
    (h : matcher prev (c :: rest) = some n) :
    replaceGo matcher tok (f + 1) prev (c :: rest)
      = tok ++ replaceGo matcher tok f (((c :: rest).take n).getLast?) ((c :: rest).drop n) := by
  rw [replaceGo, h]

theorem replaceGo_cons_none {matcher : Option Char → Str → Option Nat} {tok : Str} {f : Nat}
    {prev : Option Char} {c : Char} {rest : Str}
    (h : matcher prev (c :: rest) = none) :
    replaceGo matcher tok (f + 1) prev (c :: rest)
      = c :: replaceGo matcher tok f (some c) rest := by
  rw [replaceGo, h]

/-- The per-character digit-replacement scan agrees with the run-by-run
description of the spec, for any fuel at least the subject length. -/
theorem replaceGo_digit_eq_spec (tok : Str) :
    ∀ n s prev fuel, s.length ≤ n → s.length ≤ fuel →
      replaceGo digitMatchLen tok fuel prev s = specDigitPass tok prev s := by
  intro n
  induction n with
  | zero =>
    intro s prev fuel hn _
    have : s = [] := List.eq_nil_of_length_eq_zero (Nat.le_zero.mp hn)
    subst this
    cases fuel <;> simp [replaceGo, specDigitPass]
  | succ n ih =>
    intro s prev fuel hn hf
    cases s with
    | nil => cases fuel <;> simp [replaceGo, specDigitPass]
    | cons c rest =>
      cases fuel with
      | zero => simp at hf
      | succ f =>
        by_cases hcond : prevNonWord prev = true ∧ 7 ≤ runLen isDigitCh (c :: rest)
            ∧ boundaryAfter (c :: rest) (runLen isDigitCh (c :: rest)) = true
        · have hsome : digitMatchLen prev (c :: rest) = some (runLen isDigitCh (c :: rest)) := by
            rw [digitMatchLen_eq, if_pos hcond]
          rw [replaceGo_cons_some hsome]
          obtain ⟨hp, h7, hb⟩ := hcond
          have hc : isDigitCh c = true := by
            by_contra hcf
            simp only [Bool.not_eq_true] at hcf
            rw [runLen, if_neg (by simp [hcf])] at h7
            omega
          rw [take_runLen, drop_runLen]
          rw [specDigitPass, dif_pos hc, if_pos ?side]
          case side =>
            rw [hp, length_takeWhile, ← boundaryAfter_runLen isDigitCh, hb]
            simp [h7]
          have hlen : ((c :: rest).dropWhile isDigitCh).length ≤ rest.length := by
            have h1 : (c :: rest).dropWhile isDigitCh = rest.dropWhile isDigitCh := by
              simp [List.dropWhile_cons, hc]
            rw [h1]
            exact (List.dropWhile_sublist _).length_le
          have hlen2 : rest.length ≤ n := by simpa using Nat.le_of_succ_le_succ hn
          have hlen3 : rest.length ≤ f := by simpa using Nat.le_of_succ_le_succ hf
          rw [ih _ _ _ (Nat.le_trans hlen hlen2) (Nat.le_trans hlen hlen3)]
        · have hnone : digitMatchLen prev (c :: rest) = none := by
            rw [digitMatchLen_eq, if_neg hcond]
          rw [replaceGo_cons_none hnone]
          have hrec := ih rest (some c) f (by simpa using Nat.le_of_succ_le_succ hn)
            (by simpa using Nat.le_of_succ_le_succ hf)
          rw [hrec]
          by_cases hc : isDigitCh c = true
          · refine (specDigitPass_cons_digit_step tok prev rest hc ?_).symm
            rw [length_takeWhile, ← boundaryAfter_runLen isDigitCh]
            by_cases hp : prevNonWord prev = true
            · have : ¬(7 ≤ runLen isDigitCh (c :: rest)
                  ∧ boundaryAfter (c :: rest) (runLen isDigitCh (c :: rest)) = true) := by
                tauto
              rcases Decidable.not_and_iff_or_not.mp this with h7 | hb
              · simp [h7]
              · simp only [Bool.not_eq_true] at hb
                simp [hb]
            · simp only [Bool.not_eq_true] at hp
              simp [hp]
          · simp only [Bool.not_eq_true] at hc
            exact (specDigitPass_cons_nondigit tok prev rest hc).symm

/-- The downward backtracking over the domain consumption finds exactly
the greatest admissible split. -/
theorem domainSearch_eq (s : Str) (k : Nat) :
    domainSearch s k
      = if 1 ≤ Nat.findGreatest (specDomainProp s) k then
          some (Nat.findGreatest (specDomainProp s) k + 1
            + tldLen s (Nat.findGreatest (specDomainProp s) k))
        else none := by
  induction k with
  | zero => simp [domainSearch]
  | succ k ih =>
    by_cases h : specDomainProp s (k + 1)
    · rw [Nat.findGreatest_eq h, domainSearch, if_pos (by simp [h.2.1, h.2.2]),
        if_pos (by omega)]
    · rw [Nat.findGreatest_of_not h, domainSearch, if_neg ?neg]
      case neg =>
        simp only [Bool.and_eq_true, beq_iff_eq, decide_eq_true_eq, not_and]
        intro hdot htld
        exact h ⟨by omega, hdot, htld⟩
      exact ih

theorem specDomainLen_eq (s : Str) :
    domainSearch s (runLen isDomainCh s) = specDomainLen s := by
  rw [domainSearch_eq]
  rfl

theorem emailMatchLen_eq_spec (s : Str) : emailMatchLen s = specEmailLen s := by
  unfold emailMatchLen specEmailLen
  by_cases h1 : runLen isLocalCh s = 0
  · simp [h1]
  · by_cases h2 : s[runLen isLocalCh s]? = some '@'
    · rw [if_neg (by simpa using h1), if_pos (by simpa using h2),
        if_pos ⟨Nat.one_le_iff_ne_zero.mpr h1, h2⟩,
        specDomainLen_eq]
    · rw [if_neg (by simpa using h1), if_neg (by simpa using h2),
        if_neg (by tauto)]

theorem replaceGo_congr (m1 m2 : Option Char → Str → Option Nat)
    (h : ∀ p t, m1 p t = m2 p t) (tok : Str) :
    ∀ fuel prev s, replaceGo m1 tok fuel prev s = replaceGo m2 tok fuel prev s := by
  intro fuel
  induction fuel with
  | zero => intro prev s; rfl
  | succ f ih =>
    intro prev s
    cases s with
    | nil => rfl
    | cons c rest =>
      rw [replaceGo, replaceGo, ← h prev (c :: rest)]
      cases m1 prev (c :: rest) <;> simp [ih]

theorem maskText_eq_specMask (s : Str) : maskText s = specMask s := by
  unfold maskText specMask jsReplaceAll
  rw [replaceGo_congr (fun _ t => emailMatchLen t) (fun _ t => specEmailLen t)
    (fun _ t => emailMatchLen_eq_spec t) REDACTED_EMAIL]
  exact replaceGo_digit_eq_spec REDACTED_NUM _ _ none _ (Nat.le_refl _) (Nat.le_refl _)

theorem maskText_sanity_email_and_digits :
    maskText "a@b.co id 12345678".toList
    = "[REDACTED_EMAIL] id [REDACTED_NUM]".toList := by decide

theorem maskText_sanity_greedy_domain :
    maskText "x a@bb.cc.dd y".toList = "x [REDACTED_EMAIL] y".toList := by decide

theorem maskText_sanity_case_classes :
    maskText "A_1@x-Y.ORG".toList = "[REDACTED_EMAIL]".toList := by decide

theorem maskText_sanity_boundaries :
    maskText "_1234567 12345678a 1234567".toList
    = "_1234567 12345678a [REDACTED_NUM]".toList := by decide

/-! ## Lifecycle helper lemmas -/

theorem maskText_nil : maskText [] = [] := rfl

theorem stopConsumer_running (s : MainState) : (stopConsumer s).running = false := by
  cases hc : s.consumer <;> simp [stopConsumer, hc]

theorem stopConsumer_consumer (s : MainState) : (stopConsumer s).consumer = none := by
  cases hc : s.consumer <;> simp [stopConsumer, hc]

theorem stopConsumer_of_stopped (s : MainState) (hr : s.running = false)
    (hc : s.consumer = none) : stopConsumer s = s := by
  cases s
  simp_all [stopConsumer]

theorem stopConsumer_idem (s : MainState) : stopConsumer (stopConsumer s) = stopConsumer s :=
  stopConsumer_of_stopped _ (stopConsumer_running s) (stopConsumer_consumer s)

/-! ## Claim theorems -/

/-- C3: `maskText` coincides on every input with the reference transform
of the spec (all email-shaped substrings replaced first, then every
word-boundary-delimited run of 7 or more digits over the
already-email-redacted text), and a bounded run of 6 digits is left
untouched. -/
theorem mask_equals_reference_transform :
    (∀ s : Str, maskText s = specMask s)
    ∧ maskText "short 123456".toList = "short 123456".toList :=
  ⟨maskText_eq_specMask, by decide⟩

/-- C2: invoking the start handler while a subscription is active first
runs a full stop of the previous subscription — the head of the step
sequence is `stopConsumer`'s result, with the running flag cleared, the
handle nulled and the old connection released — and from then on at most
one connection is live and the old one never reappears, for every
outcome of the new start. -/
theorem start_no_overlap (s : MainState) (nid old : Nat) (out : StartOutcome)
    (hold : s.consumer = some old) (hlive : s.live = [old]) (hne : old ≠ nid) :
    (startSteps s nid out).head? = some (stopConsumer s)
    ∧ (stopConsumer s).running = false
    ∧ (stopConsumer s).consumer = none
    ∧ (stopConsumer s).live = []
    ∧ ∀ st ∈ startSteps s nid out, st.live.length ≤ 1 ∧ old ∉ st.live := by
  have hstop : stopConsumer s
      = { win := s.win, consumer := none, live := [], running := false } := by
    simp [stopConsumer, hold, hlive]
  refine ⟨?_, stopConsumer_running s, stopConsumer_consumer s, by rw [hstop], ?_⟩
  · cases out <;> simp [startSteps]
  · intro st hst
    cases out <;> simp only [startSteps, hstop, List.mem_cons, List.not_mem_nil,
        or_false] at hst <;>
      rcases hst with rfl | rfl | rfl | rfl <;>
      simp_all [Ne.symm hne]

theorem start_no_overlap_witness :
    (startSteps ⟨true, some 1, [1], true⟩ 2 StartOutcome.ok).head?
        = some (stopConsumer ⟨true, some 1, [1], true⟩)
    ∧ (stopConsumer ⟨true, some 1, [1], true⟩).running = false
    ∧ (stopConsumer ⟨true, some 1, [1], true⟩).consumer = none
    ∧ (stopConsumer ⟨true, some 1, [1], true⟩).live = []
    ∧ ∀ st ∈ startSteps ⟨true, some 1, [1], true⟩ 2 StartOutcome.ok,
        st.live.length ≤ 1 ∧ 1 ∉ st.live :=
  start_no_overlap ⟨true, some 1, [1], true⟩ 2 1 StartOutcome.ok rfl rfl (by decide)

/-- C4: a record is never delivered after a stop has been requested: the
delivery callback drops the record when the running flag is false or no
window is attached, delivers the normalized record (mask flag from the
start config) only otherwise, and `stopConsumer` clears the running flag
in its first step, before the connection release. -/
theorem no_delivery_after_stop :
    (∀ (running win mf : Bool) (tp : Str) (pa : Nat) (m : RawMsg),
        running = false ∨ win = false → eachMessage running win mf tp pa m = none)
    ∧ (∀ (mf : Bool) (tp : Str) (pa : Nat) (m : RawMsg),
        eachMessage true true mf tp pa m = some (normalizeMsg mf tp pa m))
    ∧ (∀ s : MainState, (stopSteps s).head? = some { s with running := false })
    ∧ (∀ s : MainState, (stopSteps s).getLast? = some (stopConsumer s)) := by
  refine ⟨?_, fun _ _ _ _ => rfl, ?_, ?_⟩
  · rintro running win mf tp pa m (rfl | rfl) <;> simp [eachMessage]
  · intro s
    cases hc : s.consumer <;> simp [stopSteps, hc]
  · intro s
    cases hc : s.consumer <;> simp [stopSteps, stopConsumer, hc]

theorem no_delivery_after_stop_witness :
    eachMessage false true true [] 0 ⟨[], none, none, none, []⟩ = none :=
  no_delivery_after_stop.1 false true true [] 0 ⟨[], none, none, none, []⟩ (Or.inl rfl)

/-- C5 counterexample: a `subscribe` failure rejects the caller, but the
subscription is NOT torn down — the handler keeps the consumer handle
and the freshly established connection stays live; and a `run` failure
leaves the running flag true, not the Stopped state. -/
theorem start_failure_no_teardown :
    startResult StartOutcome.subscribeFail = Except.error "ConnectionError"
    ∧ startFinal ⟨true, none, [], false⟩ 1 StartOutcome.subscribeFail
        = ⟨true, some 1, [1], false⟩
    ∧ (startFinal ⟨true, none, [], false⟩ 1 StartOutcome.runFail).running = true := by
  refine ⟨rfl, ?_, rfl⟩
  rfl

/-- C5 amended: every failing step of the start handler surfaces the
error to the caller (the handler has no catch); a connect or subscribe
failure leaves the running flag false, but the consumer handle stays
assigned and — once `connect` succeeded — the connection stays live (no
teardown happens in the handler); a failure of the `run` handshake
happens after `running = true` and leaves the flag true. -/
theorem start_failure_surfaced (s : MainState) (nid : Nat) (out : StartOutcome)
    (h : out ≠ StartOutcome.ok) :
    startResult out = Except.error "ConnectionError"
    ∧ (startFinal s nid out).consumer = some nid
    ∧ (out = StartOutcome.connectFail ∨ out = StartOutcome.subscribeFail →
        (startFinal s nid out).running = false)
    ∧ (out = StartOutcome.runFail → (startFinal s nid out).running = true)
    ∧ (out ≠ StartOutcome.connectFail → nid ∈ (startFinal s nid out).live) := by
  cases out with
  | ok => exact absurd rfl h
  | connectFail =>
    refine ⟨rfl, rfl, fun _ => ?_, by simp, by simp⟩
    simp [startFinal, startSteps, stopConsumer_running]
  | subscribeFail =>
    refine ⟨rfl, rfl, fun _ => ?_, by simp, by simp [startFinal, startSteps]⟩
    simp [startFinal, startSteps, stopConsumer_running]
  | runFail =>
    exact ⟨rfl, rfl, by simp, fun _ => rfl, by simp [startFinal, startSteps]⟩

theorem start_failure_surfaced_witness :
    startResult StartOutcome.subscribeFail = Except.error "ConnectionError"
    ∧ (startFinal ⟨true, none, [], false⟩ 1 StartOutcome.subscribeFail).consumer = some 1
    ∧ (StartOutcome.subscribeFail = StartOutcome.connectFail
        ∨ StartOutcome.subscribeFail = StartOutcome.subscribeFail →
        (startFinal ⟨true, none, [], false⟩ 1 StartOutcome.subscribeFail).running = false)
    ∧ (StartOutcome.subscribeFail = StartOutcome.runFail →
        (startFinal ⟨true, none, [], false⟩ 1 StartOutcome.subscribeFail).running = true)
    ∧ (StartOutcome.subscribeFail ≠ StartOutcome.connectFail →
        1 ∈ (startFinal ⟨true, none, [], false⟩ 1 StartOutcome.subscribeFail).live) :=
  start_failure_surfaced ⟨true, none, [], false⟩ 1 StartOutcome.subscribeFail (by decide)

/-- C6: the normalized timestamp is the broker-reported epoch
milliseconds when present and non-zero, and null when absent, unset or
zero. -/
theorem timestamp_present_nonzero_or_null :
    (∀ (mf : Bool) (tp : Str) (pa : Nat) (m : RawMsg),
        (normalizeMsg mf tp pa m).timestamp = normalizeTs m.timestamp)
    ∧ normalizeTs none = none
    ∧ normalizeTs (some 0) = none
    ∧ ∀ v : Int, v ≠ 0 → normalizeTs (some v) = some v := by
  refine ⟨fun _ _ _ _ => rfl, rfl, rfl, fun v hv => ?_⟩
  simp [normalizeTs, jsTruthyTs, hv]

theorem timestamp_present_nonzero_or_null_witness :
    (1638401234567 : Int) ≠ 0
    ∧ normalizeTs (some 1638401234567) = some 1638401234567 :=
  ⟨by decide, timestamp_present_nonzero_or_null.2.2.2 1638401234567 (by decide)⟩

/-- C8: stop is idempotent: the stop handler always acks success (even
with an injected disconnect failure), a second stop is a no-op returning
success, and stopping an already-stopped system does not change it. -/
theorem stop_idempotent :
    (∀ (s : MainState) (e : Bool), (stopHandler s e).1 = true)
    ∧ (∀ (s : MainState) (e1 e2 : Bool),
        stopHandler (stopHandler s e1).2 e2 = (true, (stopHandler s e1).2))
    ∧ (∀ s : MainState, s.running = false → s.consumer = none → stopConsumer s = s) := by
  refine ⟨fun _ _ => rfl, fun s e1 e2 => ?_, stopConsumer_of_stopped⟩
  simp [stopHandler, stopConsumer_idem]

theorem stop_idempotent_witness :
    stopConsumer ⟨true, none, [], false⟩ = ⟨true, none, [], false⟩ :=
  stop_idempotent.2.2 ⟨true, none, [], false⟩ rfl rfl

/-- C9: normalization maps absent key, value and header values to the
empty string, rebuilds the header mapping with the same key set, passes
key, value and header values through unchanged when masking is off, and
applies the masking engine to each of them independently when it is
on. -/
theorem normalizer_decode_and_mask (mf : Bool) (tp : Str) (pa : Nat) (m : RawMsg) :
    (m.key = none → (normalizeMsg mf tp pa m).key = [])
    ∧ (m.value = none → (normalizeMsg mf tp pa m).value = [])
    ∧ (∀ k, (k, (none : Option Str)) ∈ m.headers →
        (k, ([] : Str)) ∈ (normalizeMsg mf tp pa m).headers)
    ∧ (normalizeMsg mf tp pa m).headers.map Prod.fst = m.headers.map Prod.fst
    ∧ (mf = false →
        (normalizeMsg mf tp pa m).key = decodeBuf m.key
        ∧ (normalizeMsg mf tp pa m).value = decodeBuf m.value
        ∧ (normalizeMsg mf tp pa m).headers
            = m.headers.map (fun kv => (kv.1, decodeBuf kv.2)))
    ∧ (mf = true →
        (normalizeMsg mf tp pa m).key = maskText (decodeBuf m.key)
        ∧ (normalizeMsg mf tp pa m).value = maskText (decodeBuf m.value)
        ∧ (normalizeMsg mf tp pa m).headers
            = m.headers.map (fun kv => (kv.1, maskText (decodeBuf kv.2)))) := by
  cases mf <;>
    refine ⟨fun hk => by simp [normalizeMsg, hk, decodeBuf, maskText_nil],
      fun hv => by simp [normalizeMsg, hv, decodeBuf, maskText_nil],
      fun k hk => ?_, by simp [normalizeMsg, List.map_map, Function.comp],
      fun hmf => ?_, fun hmf => ?_⟩
  · simpa [normalizeMsg] using
      List.mem_map_of_mem (fun kv => (kv.1, decodeBuf kv.2)) hk
  · exact ⟨rfl, rfl, rfl⟩
  · simp at hmf
  · have h1 := List.mem_map_of_mem (fun kv => (kv.1, decodeBuf kv.2)) hk
    have h2 := List.mem_map_of_mem (fun kv : Str × Str => (kv.1, maskText kv.2)) h1
    simpa [normalizeMsg, maskText_nil] using h2
  · simp at hmf
  · refine ⟨rfl, rfl, by simp [normalizeMsg, List.map_map, Function.comp]⟩

theorem normalizer_decode_and_mask_witness :
    (({ offset := [], timestamp := none, key := none, value := none,
        headers := [] } : RawMsg).key = none)
    ∧ (normalizeMsg false [] 0
        { offset := [], timestamp := none, key := none, value := none,
          headers := [] }).key = [] :=
  ⟨rfl, (normalizer_decode_and_mask false [] 0
    { offset := [], timestamp := none, key := none, value := none,
      headers := [] }).1 rfl⟩

/-- C7 counterexample: the claim's literal reading (lowercase the query
but do not trim it) disagrees with the code on the query `" abc "`: the
code trims and keeps the matching record, the literal reading matches
the untrimmed `" abc "` against `"abc "` and drops it. -/
theorem filtered_trim_counterexample :
    filtered [⟨"t".toList, 0, "0".toList, none, "abc".toList, [], []⟩] " abc ".toList
        = [⟨"t".toList, 0, "0".toList, none, "abc".toList, [], []⟩]
    ∧ claimFiltered [⟨"t".toList, 0, "0".toList, none, "abc".toList, [], []⟩] " abc ".toList
        = [] := by
  constructor <;> decide

/-- C7 amended: a query that trims to nothing yields the buffer
unchanged; otherwise the query is trimmed, lowercased, and matched as a
substring of the lowercased `key ++ " " ++ value`, keeping exactly the
matching records in order (the result is always a sublist); a query
matching no record yields the empty sequence; matching is
case-insensitive (`"ABC"` finds a record containing `"abc"`). -/
theorem filtered_view_spec (messages : List KafkaMsg) (q : Str) :
    (jsTrim q = [] → filtered messages q = messages)
    ∧ (jsTrim q ≠ [] → filtered messages q
        = messages.filter (fun m =>
            jsIncludes (toLowerStr (m.key ++ ' ' :: m.value)) (toLowerStr (jsTrim q))))
    ∧ List.Sublist (filtered messages q) messages
    ∧ (jsTrim q ≠ [] →
        (∀ m ∈ messages,
          jsIncludes (toLowerStr (m.key ++ ' ' :: m.value)) (toLowerStr (jsTrim q))
            = false) →
        filtered messages q = [])
    ∧ filtered [⟨[], 0, [], none, "xabcy".toList, [], []⟩] "ABC".toList
        = [⟨[], 0, [], none, "xabcy".toList, [], []⟩] := by
  refine ⟨fun h => ?_, fun h => ?_, ?_, fun h hall => ?_, by decide⟩
  · simp [filtered, h, toLowerStr]
  · rw [filtered, if_neg (by simp [toLowerStr, h])]
  · rw [filtered]
    split
    · exact List.Sublist.refl _
    · exact List.filter_sublist _
  · rw [filtered, if_neg (by simp [toLowerStr, h])]
    simp only [List.filter_eq_nil_iff]
    intro a ha
    simp [hall a ha]

theorem filtered_view_spec_witness :
    jsTrim "  ".toList = ([] : Str) ∧ filtered [] "  ".toList = [] :=
  ⟨by decide, (filtered_view_spec [] "  ".toList).1 (by decide)⟩

/-- C10 counterexample: an invocation of the renderer `start` with a
blank topic returns before clearing anything and issues no broker call:
the retained buffer is left non-empty. -/
theorem renderer_start_blank_counterexample :
    rendererStart "b".toList [] "g".toList true
        ⟨[⟨[], 0, [], none, [], [], []⟩], [], none, UiStatus.stopped⟩
      = (false, [⟨[⟨[], 0, [], none, [], [], []⟩], [], none, UiStatus.stopped⟩])
    ∧ ([⟨[], 0, [], none, [], [], []⟩] : List KafkaMsg) ≠ [] := by
  constructor <;> decide

/-- C10 amended: every invocation of the renderer `start` whose brokers,
topic and group id survive trimming clears the retained buffer, the
transient queue and the selection before the broker start call is
issued (the first state of the trace is the cleared `starting` state),
and every later state — including the final one when the call fails —
still has an empty buffer, empty queue and no selection. -/
theorem renderer_start_reset (brokers topic groupId : Str) (callOk : Bool) (s : UiState)
    (hb : jsTrim brokers ≠ []) (ht : jsTrim topic ≠ []) (hg : jsTrim groupId ≠ []) :
    (rendererStart brokers topic groupId callOk s).1 = true
    ∧ (rendererStart brokers topic groupId callOk s).2.head?
        = some ⟨[], [], none, UiStatus.starting⟩
    ∧ ∀ st ∈ (rendererStart brokers topic groupId callOk s).2,
        st.messages = [] ∧ st.queue = [] ∧ st.selected = none := by
  rw [rendererStart, if_neg (by simp [hb, ht, hg])]
  refine ⟨rfl, rfl, ?_⟩
  intro st hst
  simp only [List.mem_cons, List.not_mem_nil, or_false] at hst
  rcases hst with rfl | rfl <;> exact ⟨rfl, rfl, rfl⟩

theorem renderer_start_reset_witness :
    (rendererStart "b".toList "t".toList "g".toList false
        ⟨[⟨[], 0, [], none, [], [], []⟩], [], none, UiStatus.stopped⟩).1 = true
    ∧ (rendererStart "b".toList "t".toList "g".toList false
        ⟨[⟨[], 0, [], none, [], [], []⟩], [], none, UiStatus.stopped⟩).2.head?
        = some ⟨[], [], none, UiStatus.starting⟩
    ∧ ∀ st ∈ (rendererStart "b".toList "t".toList "g".toList false
        ⟨[⟨[], 0, [], none, [], [], []⟩], [], none, UiStatus.stopped⟩).2,
        st.messages = [] ∧ st.queue = [] ∧ st.selected = none :=
  renderer_start_reset "b".toList "t".toList "g".toList false
    ⟨[⟨[], 0, [], none, [], [], []⟩], [], none, UiStatus.stopped⟩
    (by decide) (by decide) (by decide)

end KV
